import Mathlib

/-!
Verification of the signature-scanning image-recovery tool (`src/main.rs`,
`src/main2.rs`).  The byte stream is modelled as `List Nat` (bytes are only
ever compared for equality, so `Nat` values are a faithful shallow
embedding of `u8`); the chunked input stream is a `List (List Nat)`.
File-system and console I/O (`save_file`, directory creation, progress
printing) are external collaborators: an emission is modelled as the pair
`(byte slice, FileType)` handed to the sink, in order; the monotonically
increasing counter is the position in the emission list.
-/

namespace SdRecover

/-- The `enum FileType { Jpeg, Rw2 }` of `main.rs`. -/
inductive FileType : Type
  | Jpeg : FileType
  | Rw2 : FileType
deriving DecidableEq, Repr

/-- Model of `const JPEG_START: &[u8] = &[0xFF, 0xD8];`. -/
def JPEG_START : List Nat := [0xFF, 0xD8]

/-- Model of `const JPEG_END: &[u8] = &[0xFF, 0xD9];`. -/
def JPEG_END : List Nat := [0xFF, 0xD9]

/-- Model of `const RW2_START: &[u8] = &[0x49, 0x49, 0x2A, 0x00];`. -/
def RW2_START : List Nat := [0x49, 0x49, 0x2A, 0x00]

/-- Model of `fn find_signature(buffer: &[u8], signature: &[u8]) -> Option<usize>`:
`buffer.windows(signature.len()).position(|w| w == signature)` — the lowest
index at which `signature` occurs as a contiguous sub-slice, scanning left
to right.  (For an empty `signature` the Rust call panics in
`windows(0)`; all call sites pass one of the three nonempty constants, and
every theorem about an arbitrary pattern assumes it nonempty.) -/
def find_signature : List Nat → List Nat → Option Nat
  | [], signature => if signature.isPrefixOf ([] : List Nat) then some 0 else none
  | b :: rest, signature =>
    if signature.isPrefixOf (b :: rest) then some 0
    else (find_signature rest signature).map (· + 1)

/-- Predicate: `signature` occurs in `buffer` at index `i`
(i.e. `buffer[i..i+signature.len()] == signature`). -/
def matchesAt (buffer signature : List Nat) (i : Nat) : Prop :=
  (buffer.drop i).take signature.length = signature

instance (buffer signature : List Nat) (i : Nat) : Decidable (matchesAt buffer signature i) :=
  decidable_of_iff ((buffer.drop i).take signature.length = signature) Iff.rfl

/-- The start signature associated with a `FileType` (`JPEG_START` for
`Jpeg`, `RW2_START` for `Rw2`). -/
def startSig : FileType → List Nat
  | FileType.Jpeg => JPEG_START
  | FileType.Rw2 => RW2_START

/-- Stable insertion of a candidate into a position-sorted candidate list
(a candidate is inserted before the first later-discovered candidate whose
position is not smaller). -/
def insertByFst (a : Nat × FileType) : List (Nat × FileType) → List (Nat × FileType)
  | [] => [a]
  | b :: l => if a.1 ≤ b.1 then a :: b :: l else b :: insertByFst a l

/-- Model of `results.sort_by_key(|k| k.0)`: Rust's `sort_by_key` is a stable sort
ascending on the key, modelled by stable insertion sort on the position. -/
def sortByFst : List (Nat × FileType) → List (Nat × FileType)
  | [] => []
  | a :: l => insertByFst a (sortByFst l)

/-- Model of `fn find_all_starts(buffer: &[u8]) -> Vec<(usize, FileType)>`: push the
first `JPEG_START` occurrence (if any), then the first `RW2_START`
occurrence (if any), then sort stably by position. -/
def find_all_starts (buffer : List Nat) : List (Nat × FileType) :=
  sortByFst
    ((match find_signature buffer JPEG_START with
      | some idx => [(idx, FileType.Jpeg)]
      | none => []) ++
     (match find_signature buffer RW2_START with
      | some idx => [(idx, FileType.Rw2)]
      | none => []))

/-- Slice `&buffer[a..b]` for `a ≤ b ≤ buffer.len()`. -/
def sliceOf (buffer : List Nat) (a b : Nat) : List Nat :=
  (buffer.drop a).take (b - a)

/-- End index chosen in the Rw2 branch of the inner loop of `main.rs`:
`find_all_starts(&buffer[start_idx + 4..]).first()` gives the next start
(shifted back into absolute position), else the current end of buffer. -/
def rw2_end (buffer : List Nat) (start_idx : Nat) : Nat :=
  match (find_all_starts (buffer.drop (start_idx + 4))).head? with
  | some (next_idx, _) => start_idx + 4 + next_idx
  | none => buffer.length

/-- The inner `loop` of `main.rs` (lines 51–88), as a fuel-indexed
structural recursion: one call resolves as many complete candidates as
possible from the front of the working buffer, returning the emitted
`(slice, FileType)` list (in emission order) and the buffer left when the
loop `break`s.  `fuel = buffer.length` always suffices
(`scanFuel_congr`), because every emission drops at least the candidate's
start signature from the buffer. -/
def scanFuel : Nat → List Nat → List (List Nat × FileType) × List Nat
  | 0, buffer => ([], buffer)
  | fuel + 1, buffer =>
    match find_all_starts buffer with
    | [] =>
      -- no start signature: keep only the tail, break back to reading
      ([], buffer.drop (buffer.length - RW2_START.length))
    | (start_idx, FileType.Jpeg) :: _ =>
      match find_signature (buffer.drop (start_idx + JPEG_START.length)) JPEG_END with
      | some offset =>
        ((sliceOf buffer start_idx (start_idx + JPEG_START.length + offset + JPEG_END.length),
            FileType.Jpeg) ::
           (scanFuel fuel
             (buffer.drop (start_idx + JPEG_START.length + offset + JPEG_END.length))).1,
         (scanFuel fuel
           (buffer.drop (start_idx + JPEG_START.length + offset + JPEG_END.length))).2)
      | none =>
        -- Jpeg still open: drop everything before it, break back to reading
        ([], buffer.drop start_idx)
    | (start_idx, FileType.Rw2) :: _ =>
      ((sliceOf buffer start_idx (rw2_end buffer start_idx), FileType.Rw2) ::
         (scanFuel fuel (buffer.drop (rw2_end buffer start_idx))).1,
       (scanFuel fuel (buffer.drop (rw2_end buffer start_idx))).2)

/-- One full pass of the inner scanning loop on a working buffer. -/
def scan (buffer : List Nat) : List (List Nat × FileType) × List Nat :=
  scanFuel buffer.length buffer

/-- The outer read loop of `main.rs` (lines 41–89): append each chunk read
from the byte source to the working buffer, run the inner scanning loop,
carry the remaining buffer to the next read; a read of zero bytes
(end of stream) breaks out, discarding whatever is left in the buffer.
Returns the emitted files in order (the `counter` passed to `save_file`
is the emission's position in this list). -/
def run : List (List Nat) → List Nat → List (List Nat × FileType)
  | [], _ => []
  | chunk :: restChunks, buffer =>
    (scan (buffer ++ chunk)).1 ++ run restChunks (scan (buffer ++ chunk)).2

/-- Model of `fn match_start(buffer: &[u8]) -> Option<FileType>` from `main2.rs`:
Jpeg if the buffer begins with `JPEG_START`, else Rw2 if it begins with
`RW2_START`, else none. -/
def match_start (buffer : List Nat) : Option FileType :=
  if JPEG_START.length ≤ buffer.length ∧ JPEG_START.isPrefixOf buffer then
    some FileType.Jpeg
  else if RW2_START.length ≤ buffer.length ∧ RW2_START.isPrefixOf buffer then
    some FileType.Rw2
  else none

/-- Model of `fn find_next_start(buffer: &[u8]) -> Option<usize>` from `main2.rs`:
the first index whose suffix begins with `JPEG_START` or `RW2_START`. -/
def find_next_start : List Nat → Option Nat
  | [] => none
  | b :: rest =>
    if JPEG_START.isPrefixOf (b :: rest) || RW2_START.isPrefixOf (b :: rest) then some 0
    else (find_next_start rest).map (· + 1)

/-- End index chosen by the scanning loop of `main2.rs`: the next start
signature strictly after `pos`, else the end of the buffer. -/
def scan2_end (buffer : List Nat) (pos : Nat) : Nat :=
  match find_next_start (buffer.drop (pos + 1)) with
  | some next_start => pos + 1 + next_start
  | none => buffer.length

/-- The byte-by-byte scanning loop of `main2.rs` (lines 54–69), fuel-indexed
(each iteration advances `pos` by at least one, so `fuel = buffer.length`
suffices starting from `pos = 0`; once `pos ≥ buffer.length` both the fuel
cutoff and the loop guard return `[]`). -/
def scan2Fuel : Nat → List Nat → Nat → List (List Nat × FileType)
  | 0, _, _ => []
  | fuel + 1, buffer, pos =>
    if pos < buffer.length then
      match match_start (buffer.drop pos) with
      | some file_type =>
        (sliceOf buffer pos (scan2_end buffer pos), file_type) ::
          scan2Fuel fuel buffer (scan2_end buffer pos)
      | none => scan2Fuel fuel buffer (pos + 1)
    else []

/-- The whole-buffer scan of `main2.rs`: read everything, then scan from
position 0, emitting files in order. -/
def scan2 (buffer : List Nat) : List (List Nat × FileType) :=
  scan2Fuel buffer.length buffer 0

theorem matchesAt_zero (buffer signature : List Nat) :
    matchesAt buffer signature 0 ↔ signature.isPrefixOf buffer := by
  rw [matchesAt, List.drop_zero, List.isPrefixOf_iff_prefix, List.prefix_iff_eq_take]
  exact eq_comm

theorem matchesAt_succ (b : Nat) (rest signature : List Nat) (i : Nat) :
    matchesAt (b :: rest) signature (i + 1) ↔ matchesAt rest signature i := by
  rw [matchesAt, matchesAt, List.drop_succ_cons]

theorem matchesAt_nil (signature : List Nat) (i : Nat) :
    matchesAt ([] : List Nat) signature i ↔ signature = [] := by
  rw [matchesAt, List.drop_nil, List.take_nil]
  exact eq_comm

/-- A nonempty pattern matching at `i` lies entirely inside the buffer. -/
theorem matchesAt_le {buffer signature : List Nat} {i : Nat} (hne : signature ≠ [])
    (h : matchesAt buffer signature i) : i + signature.length ≤ buffer.length := by
  rw [matchesAt] at h
  have hlen := congrArg List.length h
  rw [List.length_take, List.length_drop] at hlen
  have h1 : 1 ≤ signature.length := List.length_pos.mpr hne
  omega

/-- Characterization: `find_signature` returns `some i` exactly when the pattern occurs at `i`
and at no smaller index. -/
theorem find_signature_eq_some_iff (buffer signature : List Nat) (i : Nat) :
    find_signature buffer signature = some i ↔
      matchesAt buffer signature i ∧ ∀ j, j < i → ¬ matchesAt buffer signature j := by
  induction buffer generalizing i with
  | nil =>
    by_cases hp : signature.isPrefixOf ([] : List Nat)
    · have hsig : signature = [] := List.prefix_nil.mp (List.isPrefixOf_iff_prefix.mp hp)
      subst hsig
      have hm : ∀ j, matchesAt ([] : List Nat) ([] : List Nat) j :=
        fun j => (matchesAt_nil _ j).mpr rfl
      simp only [find_signature, if_pos hp, Option.some.injEq]
      constructor
      · rintro rfl
        exact ⟨hm 0, fun j hj => absurd hj (Nat.not_lt_zero j)⟩
      · rintro ⟨-, hmin⟩
        by_contra hne
        exact hmin 0 (Nat.pos_of_ne_zero fun h => hne h.symm) (hm 0)
    · have hsig : signature ≠ [] := by
        intro h; exact hp (by simp [h, List.isPrefixOf])
      simp only [find_signature, if_neg hp, matchesAt_nil]
      constructor
      · intro h; cases h
      · rintro ⟨h, -⟩; exact absurd h hsig
  | cons b rest ih =>
    by_cases hp : signature.isPrefixOf (b :: rest)
    · simp only [find_signature, if_pos hp, Option.some.injEq]
      constructor
      · rintro rfl
        exact ⟨(matchesAt_zero _ _).mpr hp, by omega⟩
      · rintro ⟨hm, hmin⟩
        by_contra hne
        have hi : 0 < i := Nat.pos_of_ne_zero fun h => hne h.symm
        exact hmin 0 hi ((matchesAt_zero _ _).mpr hp)
    · simp only [find_signature, if_neg hp, Option.map_eq_some']
      constructor
      · rintro ⟨i', hi', rfl⟩
        obtain ⟨hm, hmin⟩ := (ih i').mp hi'
        refine ⟨(matchesAt_succ _ _ _ _).mpr hm, ?_⟩
        intro j hj
        match j with
        | 0 => exact fun hc => hp ((matchesAt_zero _ _).mp hc)
        | j' + 1 =>
          rw [matchesAt_succ]
          exact hmin j' (by omega)
      · rintro ⟨hm, hmin⟩
        match i with
        | 0 => exact absurd ((matchesAt_zero _ _).mp hm) hp
        | i' + 1 =>
          refine ⟨i', (ih i').mpr ⟨(matchesAt_succ _ _ _ _).mp hm, ?_⟩, rfl⟩
          intro j hj hc
          exact hmin (j + 1) (by omega) ((matchesAt_succ _ _ _ _).mpr hc)

/-- Characterization: `find_signature` returns `none` exactly when the pattern occurs nowhere. -/
theorem find_signature_eq_none_iff (buffer signature : List Nat) :
    find_signature buffer signature = none ↔ ∀ i, ¬ matchesAt buffer signature i := by
  induction buffer with
  | nil =>
    by_cases hp : signature.isPrefixOf ([] : List Nat)
    · have hsig : signature = [] := List.prefix_nil.mp (List.isPrefixOf_iff_prefix.mp hp)
      subst hsig
      simp only [find_signature, if_pos hp]
      constructor
      · intro h; cases h
      · intro h; exact absurd ((matchesAt_nil _ 0).mpr rfl) (h 0)
    · have hsig : signature ≠ [] := by
        intro h; exact hp (by simp [h, List.isPrefixOf])
      simp only [find_signature, if_neg hp, true_iff]
      intro i hc
      exact hsig ((matchesAt_nil _ i).mp hc)
  | cons b rest ih =>
    by_cases hp : signature.isPrefixOf (b :: rest)
    · simp only [find_signature, if_pos hp]
      constructor
      · intro h; exact Option.noConfusion h
      · intro h; exact absurd ((matchesAt_zero _ _).mpr hp) (h 0)
    · simp only [find_signature, if_neg hp, Option.map_eq_none', ih]
      constructor
      · intro h i
        match i with
        | 0 => exact fun hc => hp ((matchesAt_zero _ _).mp hc)
        | i' + 1 =>
          rw [matchesAt_succ]
          exact h i'
      · intro h i hc
        exact h (i + 1) ((matchesAt_succ _ _ _ _).mpr hc)

theorem find_all_starts_both {buffer : List Nat} {i j : Nat}
    (hj : find_signature buffer JPEG_START = some i)
    (hr : find_signature buffer RW2_START = some j) :
    find_all_starts buffer =
      if i ≤ j then [(i, FileType.Jpeg), (j, FileType.Rw2)]
      else [(j, FileType.Rw2), (i, FileType.Jpeg)] := by
  rw [find_all_starts, hj, hr]
  by_cases h : i ≤ j <;> simp [sortByFst, insertByFst, h]

theorem find_all_starts_jpeg_only {buffer : List Nat} {i : Nat}
    (hj : find_signature buffer JPEG_START = some i)
    (hr : find_signature buffer RW2_START = none) :
    find_all_starts buffer = [(i, FileType.Jpeg)] := by
  rw [find_all_starts, hj, hr]
  rfl

theorem find_all_starts_rw2_only {buffer : List Nat} {j : Nat}
    (hj : find_signature buffer JPEG_START = none)
    (hr : find_signature buffer RW2_START = some j) :
    find_all_starts buffer = [(j, FileType.Rw2)] := by
  rw [find_all_starts, hj, hr]
  rfl

theorem find_all_starts_none {buffer : List Nat}
    (hj : find_signature buffer JPEG_START = none)
    (hr : find_signature buffer RW2_START = none) :
    find_all_starts buffer = [] := by
  rw [find_all_starts, hj, hr]
  rfl

/-- Membership in `find_all_starts`: exactly the first occurrence of each
format's start signature. -/
theorem mem_find_all_starts {buffer : List Nat} {i : Nat} {ft : FileType} :
    (i, ft) ∈ find_all_starts buffer ↔ find_signature buffer (startSig ft) = some i := by
  rcases hj : find_signature buffer JPEG_START with _ | a <;>
    rcases hr : find_signature buffer RW2_START with _ | b
  · rw [find_all_starts_none hj hr]
    cases ft <;> simp [startSig, hj, hr]
  · rw [find_all_starts_rw2_only hj hr]
    cases ft <;> simp [startSig, hj, hr, eq_comm]
  · rw [find_all_starts_jpeg_only hj hr]
    cases ft <;> simp [startSig, hj, hr, eq_comm]
  · rw [find_all_starts_both hj hr]
    by_cases h : a ≤ b <;> cases ft <;> simp [h, startSig, hj, hr, eq_comm]

theorem startSig_ne_nil (ft : FileType) : startSig ft ≠ [] := by
  cases ft <;> simp [startSig, JPEG_START, RW2_START]

/-- The head of `find_all_starts` is a real first occurrence of its
format's start signature. -/
theorem find_all_starts_head_sig {buffer : List Nat} {s : Nat} {ft : FileType}
    {rest : List (Nat × FileType)}
    (h : find_all_starts buffer = (s, ft) :: rest) :
    find_signature buffer (startSig ft) = some s :=
  mem_find_all_starts.mp (h ▸ List.mem_cons_self _ _)

/-- The head candidate's signature fits inside the buffer. -/
theorem find_all_starts_head_le {buffer : List Nat} {s : Nat} {ft : FileType}
    {rest : List (Nat × FileType)}
    (h : find_all_starts buffer = (s, ft) :: rest) :
    s + (startSig ft).length ≤ buffer.length :=
  matchesAt_le (startSig_ne_nil ft)
    ((find_signature_eq_some_iff _ _ _).mp (find_all_starts_head_sig h)).1

/-- The head candidate's signature bytes are present at its position. -/
theorem find_all_starts_head_matches {buffer : List Nat} {s : Nat} {ft : FileType}
    {rest : List (Nat × FileType)}
    (h : find_all_starts buffer = (s, ft) :: rest) :
    (buffer.drop s).take (startSig ft).length = startSig ft :=
  ((find_signature_eq_some_iff _ _ _).mp (find_all_starts_head_sig h)).1

theorem find_all_starts_nil : find_all_starts ([] : List Nat) = [] := rfl

theorem rw2_end_ge {buffer : List Nat} {s : Nat} {rest : List (Nat × FileType)}
    (h : find_all_starts buffer = (s, FileType.Rw2) :: rest) :
    s + 4 ≤ rw2_end buffer s := by
  have h4 := find_all_starts_head_le h
  simp only [startSig, RW2_START, List.length_cons, List.length_nil] at h4
  rcases hh : (find_all_starts (buffer.drop (s + 4))).head? with _ | ⟨k, ft2⟩
  · simp only [rw2_end, hh]
    omega
  · simp only [rw2_end, hh]
    omega

theorem rw2_end_le {buffer : List Nat} {s : Nat} {rest : List (Nat × FileType)}
    (h : find_all_starts buffer = (s, FileType.Rw2) :: rest) :
    rw2_end buffer s ≤ buffer.length := by
  have h4 := find_all_starts_head_le h
  simp only [startSig, RW2_START, List.length_cons, List.length_nil] at h4
  rcases hl : find_all_starts (buffer.drop (s + 4)) with _ | ⟨⟨k, ft2⟩, tail⟩
  · simp [rw2_end, hl]
  · have hk := find_all_starts_head_le hl
    rw [List.length_drop] at hk
    have hft : 1 ≤ (startSig ft2).length := List.length_pos.mpr (startSig_ne_nil ft2)
    simp only [rw2_end, hl, List.head?_cons]
    omega

/-- Any fuel at least `buffer.length` computes the same result. -/
theorem scanFuel_congr : ∀ (f f' : Nat) (buffer : List Nat),
    buffer.length ≤ f → buffer.length ≤ f' → scanFuel f buffer = scanFuel f' buffer := by
  intro f
  induction f with
  | zero =>
    intro f' buffer hf hf'
    have hb : buffer = [] := List.eq_nil_of_length_eq_zero (Nat.le_zero.mp hf)
    subst hb
    cases f' with
    | zero => rfl
    | succ g => simp [scanFuel, find_all_starts_nil]
  | succ n ih =>
    intro f' buffer hf hf'
    rcases buffer with _ | ⟨b, bs⟩
    · cases f' with
      | zero => simp [scanFuel, find_all_starts_nil]
      | succ g => rfl
    · cases f' with
      | zero => exact absurd hf' (by simp)
      | succ m =>
        rcases hfa : find_all_starts (b :: bs) with _ | ⟨⟨s, ft⟩, rest⟩
        · simp only [scanFuel, hfa]
        · cases ft with
          | Jpeg =>
            rcases hfs : find_signature ((b :: bs).drop (s + JPEG_START.length)) JPEG_END
              with _ | k
            · simp only [scanFuel, hfa, hfs]
            · have h2 : JPEG_START.length = 2 := rfl
              have h2' : JPEG_END.length = 2 := rfl
              simp only [scanFuel, hfa, hfs]
              have hd : ((b :: bs).drop (s + JPEG_START.length + k + JPEG_END.length)).length
                  ≤ n := by
                rw [List.length_drop, List.length_cons]
                rw [List.length_cons] at hf
                omega
              have hd' : ((b :: bs).drop (s + JPEG_START.length + k + JPEG_END.length)).length
                  ≤ m := by
                rw [List.length_drop, List.length_cons]
                rw [List.length_cons] at hf'
                omega
              rw [ih m _ hd hd']
          | Rw2 =>
            have hge := rw2_end_ge hfa
            simp only [scanFuel, hfa]
            have hd : ((b :: bs).drop (rw2_end (b :: bs) s)).length ≤ n := by
              rw [List.length_drop, List.length_cons]
              rw [List.length_cons] at hf
              omega
            have hd' : ((b :: bs).drop (rw2_end (b :: bs) s)).length ≤ m := by
              rw [List.length_drop, List.length_cons]
              rw [List.length_cons] at hf'
              omega
            rw [ih m _ hd hd']

theorem scan_nil : scan ([] : List Nat) = ([], []) := rfl

/-- Branch of the inner loop when `find_all_starts` finds no candidate:
nothing is emitted, the buffer keeps only its last `RW2_START.length`
bytes (`split_off(len.saturating_sub(RW2_START.len()))`). -/
theorem scan_no_candidates {buffer : List Nat}
    (h : find_all_starts buffer = []) :
    scan buffer = ([], buffer.drop (buffer.length - RW2_START.length)) := by
  rcases buffer with _ | ⟨b, bs⟩
  · rfl
  · rw [scan, List.length_cons]
    simp only [scanFuel, h]
    rw [List.length_cons]

/-- Branch of the inner loop when the earliest candidate is a Jpeg start
and the end marker is found: emit the slice through the end marker, loop
on the remainder. -/
theorem scan_jpeg_some {buffer : List Nat} {s k : Nat} {rest : List (Nat × FileType)}
    (h : find_all_starts buffer = (s, FileType.Jpeg) :: rest)
    (hk : find_signature (buffer.drop (s + JPEG_START.length)) JPEG_END = some k) :
    scan buffer =
      ((sliceOf buffer s (s + JPEG_START.length + k + JPEG_END.length), FileType.Jpeg) ::
         (scan (buffer.drop (s + JPEG_START.length + k + JPEG_END.length))).1,
       (scan (buffer.drop (s + JPEG_START.length + k + JPEG_END.length))).2) := by
  rcases buffer with _ | ⟨b, bs⟩
  · rw [find_all_starts_nil] at h
    exact absurd h (by simp)
  · rw [scan, List.length_cons]
    simp only [scanFuel, h, hk]
    have hcongr : scanFuel bs.length
          ((b :: bs).drop (s + JPEG_START.length + k + JPEG_END.length)) =
        scan ((b :: bs).drop (s + JPEG_START.length + k + JPEG_END.length)) := by
      rw [scan]
      apply scanFuel_congr
      · rw [List.length_drop, List.length_cons]
        have h2 : JPEG_START.length = 2 := rfl
        have h2' : JPEG_END.length = 2 := rfl
        omega
      · exact le_rfl
    rw [hcongr]

/-- Branch of the inner loop when the earliest candidate is a Jpeg start
but no end marker follows: nothing is emitted, the buffer is truncated to
start at the candidate, the loop breaks back to reading. -/
theorem scan_jpeg_none {buffer : List Nat} {s : Nat} {rest : List (Nat × FileType)}
    (h : find_all_starts buffer = (s, FileType.Jpeg) :: rest)
    (hk : find_signature (buffer.drop (s + JPEG_START.length)) JPEG_END = none) :
    scan buffer = ([], buffer.drop s) := by
  rcases buffer with _ | ⟨b, bs⟩
  · rw [find_all_starts_nil] at h
    exact absurd h (by simp)
  · rw [scan, List.length_cons]
    simp only [scanFuel, h, hk]

/-- Branch of the inner loop when the earliest candidate is an Rw2 start:
emit the slice up to `rw2_end` (next start, else end of buffer), loop on
the remainder. -/
theorem scan_rw2 {buffer : List Nat} {s : Nat} {rest : List (Nat × FileType)}
    (h : find_all_starts buffer = (s, FileType.Rw2) :: rest) :
    scan buffer =
      ((sliceOf buffer s (rw2_end buffer s), FileType.Rw2) ::
         (scan (buffer.drop (rw2_end buffer s))).1,
       (scan (buffer.drop (rw2_end buffer s))).2) := by
  have hge := rw2_end_ge h
  rcases buffer with _ | ⟨b, bs⟩
  · rw [find_all_starts_nil] at h
    exact absurd h (by simp)
  · rw [scan, List.length_cons]
    simp only [scanFuel, h]
    have hcongr : scanFuel bs.length ((b :: bs).drop (rw2_end (b :: bs) s)) =
        scan ((b :: bs).drop (rw2_end (b :: bs) s)) := by
      rw [scan]
      apply scanFuel_congr
      · rw [List.length_drop, List.length_cons]
        omega
      · exact le_rfl
    rw [hcongr]

/-- Characterization: `find_next_start` finds a position where one of the two start
signatures matches, and none matches earlier. -/
theorem find_next_start_eq_some_iff (buffer : List Nat) (i : Nat) :
    find_next_start buffer = some i ↔
      ((matchesAt buffer JPEG_START i ∨ matchesAt buffer RW2_START i) ∧
        ∀ j, j < i →
          ¬ (matchesAt buffer JPEG_START j ∨ matchesAt buffer RW2_START j)) := by
  induction buffer generalizing i with
  | nil =>
    simp only [find_next_start, matchesAt_nil]
    constructor
    · intro h; cases h
    · rintro ⟨h | h, -⟩ <;> simp [JPEG_START, RW2_START] at h
  | cons b rest ih =>
    by_cases hp : (JPEG_START.isPrefixOf (b :: rest) || RW2_START.isPrefixOf (b :: rest)) = true
    · rw [Bool.or_eq_true] at hp
      have hm0 : matchesAt (b :: rest) JPEG_START 0 ∨ matchesAt (b :: rest) RW2_START 0 := by
        rcases hp with hp | hp
        · exact Or.inl ((matchesAt_zero _ _).mpr hp)
        · exact Or.inr ((matchesAt_zero _ _).mpr hp)
      simp only [find_next_start, if_pos (Bool.or_eq_true _ _ |>.mpr hp), Option.some.injEq]
      constructor
      · rintro rfl
        exact ⟨hm0, fun j hj => absurd hj (Nat.not_lt_zero j)⟩
      · rintro ⟨-, hmin⟩
        by_contra hne
        exact hmin 0 (Nat.pos_of_ne_zero fun hc => hne hc.symm) hm0
    · have hp' : ¬ (JPEG_START.isPrefixOf (b :: rest) ∨ RW2_START.isPrefixOf (b :: rest)) := by
        rw [← Bool.or_eq_true] at *
        simpa using hp
      simp only [find_next_start, if_neg hp, Option.map_eq_some']
      constructor
      · rintro ⟨i', hi', rfl⟩
        obtain ⟨hm, hmin⟩ := (ih i').mp hi'
        refine ⟨?_, ?_⟩
        · rcases hm with hm | hm
          · exact Or.inl ((matchesAt_succ _ _ _ _).mpr hm)
          · exact Or.inr ((matchesAt_succ _ _ _ _).mpr hm)
        · intro j hj
          match j with
          | 0 =>
            rintro (hc | hc)
            · exact hp' (Or.inl ((matchesAt_zero _ _).mp hc))
            · exact hp' (Or.inr ((matchesAt_zero _ _).mp hc))
          | j' + 1 =>
            rw [matchesAt_succ, matchesAt_succ]
            exact hmin j' (by omega)
      · rintro ⟨hm, hmin⟩
        match i with
        | 0 =>
          exfalso
          rcases hm with hm | hm
          · exact hp' (Or.inl ((matchesAt_zero _ _).mp hm))
          · exact hp' (Or.inr ((matchesAt_zero _ _).mp hm))
        | i' + 1 =>
          refine ⟨i', (ih i').mpr ⟨?_, ?_⟩, rfl⟩
          · rcases hm with hm | hm
            · exact Or.inl ((matchesAt_succ _ _ _ _).mp hm)
            · exact Or.inr ((matchesAt_succ _ _ _ _).mp hm)
          · intro j hj hc
            refine hmin (j + 1) (by omega) ?_
            rcases hc with hc | hc
            · exact Or.inl ((matchesAt_succ _ _ _ _).mpr hc)
            · exact Or.inr ((matchesAt_succ _ _ _ _).mpr hc)

/-- Characterization: `find_next_start` returns `none` exactly when neither start signature
occurs anywhere. -/
theorem find_next_start_eq_none_iff (buffer : List Nat) :
    find_next_start buffer = none ↔
      ∀ i, ¬ (matchesAt buffer JPEG_START i ∨ matchesAt buffer RW2_START i) := by
  induction buffer with
  | nil =>
    simp only [find_next_start, matchesAt_nil, true_iff]
    rintro i (h | h) <;> simp [JPEG_START, RW2_START] at h
  | cons b rest ih =>
    by_cases hp : (JPEG_START.isPrefixOf (b :: rest) || RW2_START.isPrefixOf (b :: rest)) = true
    · rw [Bool.or_eq_true] at hp
      have hm0 : matchesAt (b :: rest) JPEG_START 0 ∨ matchesAt (b :: rest) RW2_START 0 := by
        rcases hp with hp | hp
        · exact Or.inl ((matchesAt_zero _ _).mpr hp)
        · exact Or.inr ((matchesAt_zero _ _).mpr hp)
      simp only [find_next_start, if_pos (Bool.or_eq_true _ _ |>.mpr hp)]
      constructor
      · intro h; exact Option.noConfusion h
      · intro h; exact absurd hm0 (h 0)
    · have hp' : ¬ (JPEG_START.isPrefixOf (b :: rest) ∨ RW2_START.isPrefixOf (b :: rest)) := by
        rw [← Bool.or_eq_true] at *
        simpa using hp
      simp only [find_next_start, if_neg hp, Option.map_eq_none', ih]
      constructor
      · intro h i
        match i with
        | 0 =>
          rintro (hc | hc)
          · exact hp' (Or.inl ((matchesAt_zero _ _).mp hc))
          · exact hp' (Or.inr ((matchesAt_zero _ _).mp hc))
        | i' + 1 =>
          rw [matchesAt_succ, matchesAt_succ]
          exact h i'
      · intro h i hc
        refine h (i + 1) ?_
        rcases hc with hc | hc
        · exact Or.inl ((matchesAt_succ _ _ _ _).mpr hc)
        · exact Or.inr ((matchesAt_succ _ _ _ _).mpr hc)

/-- The two start signatures cannot both match at the same position (their
first bytes differ: `0xFF` vs `0x49`). -/
theorem not_matchesAt_both {buffer : List Nat} {i : Nat}
    (hj : matchesAt buffer JPEG_START i) (hr : matchesAt buffer RW2_START i) : False := by
  rw [matchesAt] at hj hr
  rcases hd : buffer.drop i with _ | ⟨c, t⟩ <;> rw [hd] at hj hr
  · exact absurd hj (by simp [JPEG_START])
  · simp [JPEG_START, List.take_cons] at hj
    simp [RW2_START, List.take_cons] at hr
    omega

/-- The slice emitted by the resolved-Jpeg branch begins with the Jpeg
start marker and ends with the Jpeg end marker. -/
theorem jpeg_slice_ok {buffer : List Nat} {s k : Nat} {rest : List (Nat × FileType)}
    (h : find_all_starts buffer = (s, FileType.Jpeg) :: rest)
    (hk : find_signature (buffer.drop (s + JPEG_START.length)) JPEG_END = some k) :
    JPEG_START <+: sliceOf buffer s (s + JPEG_START.length + k + JPEG_END.length) ∧
      JPEG_END <:+ sliceOf buffer s (s + JPEG_START.length + k + JPEG_END.length) := by
  have hm : (buffer.drop s).take 2 = JPEG_START := find_all_starts_head_matches h
  have hs2 : s + 2 ≤ buffer.length := find_all_starts_head_le h
  have hkm : ((buffer.drop (s + 2)).drop k).take 2 = JPEG_END :=
    ((find_signature_eq_some_iff _ _ _).mp hk).1
  have hkb : k + 2 ≤ (buffer.drop (s + 2)).length :=
    matchesAt_le (by simp [JPEG_END]) ((find_signature_eq_some_iff _ _ _).mp hk).1
  rw [List.length_drop] at hkb
  have hse : s + JPEG_START.length + k + JPEG_END.length - s = k + 4 := by
    have h2 : JPEG_START.length = 2 := rfl
    have h2' : JPEG_END.length = 2 := rfl
    omega
  constructor
  · rw [List.prefix_iff_eq_take, sliceOf, hse, List.take_take]
    have hmin : JPEG_START.length ⊓ (k + 4) = 2 := by
      have h2 : JPEG_START.length = 2 := rfl
      omega
    rw [hmin, hm]
  · rw [List.suffix_iff_eq_drop, sliceOf, hse]
    have hlen : ((buffer.drop s).take (k + 4)).length = k + 4 := by
      rw [List.length_take, List.length_drop]
      omega
    have h2' : JPEG_END.length = 2 := rfl
    rw [hlen, h2', List.drop_take, List.drop_drop]
    have harith : k + 4 - (k + 4 - 2) = 2 := by omega
    have harith2 : s + (k + 4 - 2) = s + 2 + k := by omega
    rw [harith, harith2]
    rw [List.drop_drop] at hkm
    exact hkm.symm

/-- The slice emitted by the Rw2 branch begins with the Rw2 start
signature and is at least 4 bytes long. -/
theorem rw2_slice_ok {buffer : List Nat} {s : Nat} {rest : List (Nat × FileType)}
    (h : find_all_starts buffer = (s, FileType.Rw2) :: rest) :
    RW2_START <+: sliceOf buffer s (rw2_end buffer s) ∧
      4 ≤ (sliceOf buffer s (rw2_end buffer s)).length := by
  have hm : (buffer.drop s).take 4 = RW2_START := find_all_starts_head_matches h
  have hge := rw2_end_ge h
  have hle := rw2_end_le h
  have hs4 : s + 4 ≤ buffer.length := find_all_starts_head_le h
  constructor
  · rw [List.prefix_iff_eq_take, sliceOf, List.take_take]
    have hmin : RW2_START.length ⊓ (rw2_end buffer s - s) = 4 := by
      have h4 : RW2_START.length = 4 := rfl
      omega
    rw [hmin, hm]
  · rw [sliceOf, List.length_take, List.length_drop]
    omega

/-- Emission invariant of the inner loop: every emitted slice carries its
format's start signature, Jpeg slices end with the end marker, Rw2 slices
are at least signature-sized. -/
theorem scanFuel_emits : ∀ (fuel : Nat) (buffer : List Nat), buffer.length ≤ fuel →
    ∀ f t, (f, t) ∈ (scanFuel fuel buffer).1 →
      (t = FileType.Jpeg → JPEG_START <+: f ∧ JPEG_END <:+ f) ∧
      (t = FileType.Rw2 → RW2_START <+: f ∧ 4 ≤ f.length) := by
  intro fuel
  induction fuel with
  | zero =>
    intro buffer hb f t hmem
    simp [scanFuel] at hmem
  | succ n ih =>
    intro buffer hb f t hmem
    rcases hfa : find_all_starts buffer with _ | ⟨⟨s, ft⟩, rest⟩
    · simp only [scanFuel, hfa] at hmem
      simp at hmem
    · cases ft with
      | Jpeg =>
        rcases hfs : find_signature (buffer.drop (s + JPEG_START.length)) JPEG_END with _ | k
        · simp only [scanFuel, hfa, hfs] at hmem
          simp at hmem
        · simp only [scanFuel, hfa, hfs, List.mem_cons] at hmem
          rcases hmem with hmem | hmem
          · obtain ⟨rfl, rfl⟩ := Prod.mk.inj hmem
            exact ⟨fun _ => jpeg_slice_ok hfa hfs, fun hcon => FileType.noConfusion hcon⟩
          · have hlen : (buffer.drop (s + JPEG_START.length + k + JPEG_END.length)).length
                ≤ n := by
              rw [List.length_drop]
              have h2 : JPEG_START.length = 2 := rfl
              have h2' : JPEG_END.length = 2 := rfl
              omega
            exact ih _ hlen f t hmem
      | Rw2 =>
        have hge := rw2_end_ge hfa
        simp only [scanFuel, hfa, List.mem_cons] at hmem
        rcases hmem with hmem | hmem
        · obtain ⟨rfl, rfl⟩ := Prod.mk.inj hmem
          exact ⟨fun hcon => FileType.noConfusion hcon, fun _ => rw2_slice_ok hfa⟩
        · have hlen : (buffer.drop (rw2_end buffer s)).length ≤ n := by
            rw [List.length_drop]
            omega
          exact ih _ hlen f t hmem

theorem scan_emits {buffer : List Nat} {f : List Nat} {t : FileType}
    (hmem : (f, t) ∈ (scan buffer).1) :
    (t = FileType.Jpeg → JPEG_START <+: f ∧ JPEG_END <:+ f) ∧
    (t = FileType.Rw2 → RW2_START <+: f ∧ 4 ≤ f.length) :=
  scanFuel_emits buffer.length buffer le_rfl f t hmem

theorem run_emits : ∀ (chunks : List (List Nat)) (buffer : List Nat)
    (f : List Nat) (t : FileType), (f, t) ∈ run chunks buffer →
    (t = FileType.Jpeg → JPEG_START <+: f ∧ JPEG_END <:+ f) ∧
    (t = FileType.Rw2 → RW2_START <+: f ∧ 4 ≤ f.length) := by
  intro chunks
  induction chunks with
  | nil =>
    intro buffer f t h
    simp [run] at h
  | cons c cs ih =>
    intro buffer f t h
    simp only [run, List.mem_append] at h
    rcases h with h | h
    · exact scan_emits h
    · exact ih _ f t h

/-- C7: for every buffer and every non-empty pattern,
`find_signature(buffer, pattern)` returns the lowest index `i` such that
`buffer[i..i+len(pattern)]` equals the pattern, returns not-found when no
such index exists, and in particular returns not-found on a zero-length
search range (empty buffer, or any buffer shorter than the pattern). -/
theorem C7_find_signature_contract (buffer signature : List Nat) (hne : signature ≠ []) :
    (∀ i, find_signature buffer signature = some i ↔
        (i + signature.length ≤ buffer.length ∧ matchesAt buffer signature i ∧
          ∀ j, j < i → ¬ matchesAt buffer signature j)) ∧
    (find_signature buffer signature = none ↔ ∀ i, ¬ matchesAt buffer signature i) ∧
    (buffer.length < signature.length → find_signature buffer signature = none) := by
  refine ⟨fun i => ?_, find_signature_eq_none_iff buffer signature, fun hlt => ?_⟩
  · rw [find_signature_eq_some_iff]
    constructor
    · rintro ⟨hm, hmin⟩
      exact ⟨matchesAt_le hne hm, hm, hmin⟩
    · rintro ⟨-, hm, hmin⟩
      exact ⟨hm, hmin⟩
  · rw [find_signature_eq_none_iff]
    intro i hm
    have := matchesAt_le hne hm
    omega

/-- Witness for C7 at the concrete buffer from the repository's unit test:
the Jpeg start signature is found at index 3. -/
theorem C7_find_signature_contract_witness :
    find_signature [0x00, 0x11, 0x22, 0xFF, 0xD8, 0x33, 0x44] JPEG_START = some 3 :=
  ((C7_find_signature_contract [0x00, 0x11, 0x22, 0xFF, 0xD8, 0x33, 0x44] JPEG_START
      (by decide)).1 3).mpr (by decide)

/-- C6: `find_all_starts` runs the matcher for the Jpeg and Rw2 start
patterns independently, collects the found positions as
`(position, FormatTag)` candidates, returns them sorted ascending by
position (with Jpeg pushed before Rw2, so Jpeg first whenever its
position is ≤ the Rw2 position), and returns the empty sequence exactly
when neither pattern occurs. -/
theorem C6_find_all_starts_contract (buffer : List Nat) :
    (∀ i ft, (i, ft) ∈ find_all_starts buffer ↔
        find_signature buffer (startSig ft) = some i) ∧
    List.Pairwise (fun a b => a.1 ≤ b.1) (find_all_starts buffer) ∧
    (∀ i j, find_signature buffer JPEG_START = some i →
        find_signature buffer RW2_START = some j → i ≤ j →
        find_all_starts buffer = [(i, FileType.Jpeg), (j, FileType.Rw2)]) ∧
    (find_all_starts buffer = [] ↔
        find_signature buffer JPEG_START = none ∧
          find_signature buffer RW2_START = none) := by
  refine ⟨fun i ft => mem_find_all_starts, ?_, ?_, ?_⟩
  · rcases hj : find_signature buffer JPEG_START with _ | a <;>
      rcases hr : find_signature buffer RW2_START with _ | b
    · rw [find_all_starts_none hj hr]
      exact List.Pairwise.nil
    · rw [find_all_starts_rw2_only hj hr]
      simp
    · rw [find_all_starts_jpeg_only hj hr]
      simp
    · rw [find_all_starts_both hj hr]
      by_cases hab : a ≤ b
      · rw [if_pos hab]
        simp [hab]
      · rw [if_neg hab]
        simp
        omega
  · intro i j hj hr hij
    rw [find_all_starts_both hj hr, if_pos hij]
  · constructor
    · intro h
      rcases hj : find_signature buffer JPEG_START with _ | a <;>
        rcases hr : find_signature buffer RW2_START with _ | b
      · exact ⟨rfl, rfl⟩
      · rw [find_all_starts_rw2_only hj hr] at h
        cases h
      · rw [find_all_starts_jpeg_only hj hr] at h
        cases h
      · rw [find_all_starts_both hj hr] at h
        by_cases hab : a ≤ b
        · rw [if_pos hab] at h
          cases h
        · rw [if_neg hab] at h
          cases h
    · rintro ⟨hj, hr⟩
      exact find_all_starts_none hj hr

/-- Witness for C6 at a buffer holding both signatures: both candidates,
ascending, Jpeg first. -/
theorem C6_find_all_starts_contract_witness :
    find_all_starts [0xFF, 0xD8, 0x49, 0x49, 0x2A, 0x00] =
      [(0, FileType.Jpeg), (2, FileType.Rw2)] :=
  (C6_find_all_starts_contract [0xFF, 0xD8, 0x49, 0x49, 0x2A, 0x00]).2.2.1 0 2
    (by decide) (by decide) (by decide)

/-- C10: `find_all_starts` returns at most two candidates — at most one
per format — and each returned candidate is the first (lowest-index)
occurrence of that format's start pattern; later occurrences are never
reported. -/
theorem C10_find_all_starts_first_occurrence (buffer : List Nat) :
    (find_all_starts buffer).length ≤ 2 ∧
    (∀ i ft, (i, ft) ∈ find_all_starts buffer →
        matchesAt buffer (startSig ft) i ∧
          ∀ j, j < i → ¬ matchesAt buffer (startSig ft) j) ∧
    (∀ i j ft, (i, ft) ∈ find_all_starts buffer →
        (j, ft) ∈ find_all_starts buffer → i = j) := by
  refine ⟨?_,
    fun i ft hmem => (find_signature_eq_some_iff _ _ _).mp (mem_find_all_starts.mp hmem),
    fun i j ft hi hj => ?_⟩
  · rcases hj : find_signature buffer JPEG_START with _ | a <;>
      rcases hr : find_signature buffer RW2_START with _ | b
    · rw [find_all_starts_none hj hr]
      simp
    · rw [find_all_starts_rw2_only hj hr]
      simp
    · rw [find_all_starts_jpeg_only hj hr]
      simp
    · rw [find_all_starts_both hj hr]
      by_cases hab : a ≤ b
      · rw [if_pos hab]
        simp
      · rw [if_neg hab]
        simp
  · have h1 := mem_find_all_starts.mp hi
    have h2 := mem_find_all_starts.mp hj
    rw [h1] at h2
    exact Option.some.inj h2

/-- Witness for C10 at a buffer holding two Jpeg start occurrences: only
the first one (index 1) is a candidate. -/
theorem C10_find_all_starts_first_occurrence_witness :
    matchesAt [0x00, 0xFF, 0xD8, 0x00, 0xFF, 0xD8] (startSig FileType.Jpeg) 1 ∧
      ∀ j, j < 1 →
        ¬ matchesAt [0x00, 0xFF, 0xD8, 0x00, 0xFF, 0xD8] (startSig FileType.Jpeg) j :=
  (C10_find_all_starts_first_occurrence [0x00, 0xFF, 0xD8, 0x00, 0xFF, 0xD8]).2.1 1
    FileType.Jpeg (by decide)

/-- C1: when the earliest candidate in the working buffer is a Jpeg start
at `s` and the end marker is found at offset `k` strictly after the 2-byte
start marker, the engine emits exactly `buffer[s .. s + 2 + k + 2]` tagged
Jpeg and advances the buffer to drop everything up through that end index;
in particular, on a buffer `JPEG_START ++ payload ++ JPEG_END` whose
payload holds no signature, exactly one file spanning the whole slice
(both markers included) is emitted. -/
theorem C1_jpeg_extraction :
    (∀ (buffer : List Nat) (s k : Nat) (rest : List (Nat × FileType)),
        find_all_starts buffer = (s, FileType.Jpeg) :: rest →
        find_signature (buffer.drop (s + 2)) JPEG_END = some k →
        scan buffer =
          ((sliceOf buffer s (s + 2 + k + 2), FileType.Jpeg) ::
             (scan (buffer.drop (s + 2 + k + 2))).1,
           (scan (buffer.drop (s + 2 + k + 2))).2)) ∧
    (∀ payload : List Nat,
        find_signature payload JPEG_START = none →
        find_signature payload JPEG_END = none →
        find_signature payload RW2_START = none →
        scan (JPEG_START ++ payload ++ JPEG_END) =
          ([(JPEG_START ++ payload ++ JPEG_END, FileType.Jpeg)], [])) := by
  constructor
  · intro buffer s k rest h hk
    exact scan_jpeg_some h hk
  · intro payload hps hpe hprs
    have h0 : find_signature (JPEG_START ++ payload ++ JPEG_END) JPEG_START = some 0 := by
      rw [find_signature_eq_some_iff]
      refine ⟨?_, fun j hj => absurd hj (Nat.not_lt_zero j)⟩
      rw [matchesAt, List.drop_zero, List.append_assoc]
      exact List.take_left _ _
    have hdrop2 : (JPEG_START ++ payload ++ JPEG_END).drop (0 + 2) = payload ++ JPEG_END := by
      rw [List.append_assoc]
      show (JPEG_START ++ (payload ++ JPEG_END)).drop JPEG_START.length = payload ++ JPEG_END
      exact List.drop_left _ _
    have hend : find_signature ((JPEG_START ++ payload ++ JPEG_END).drop (0 + 2)) JPEG_END =
        some payload.length := by
      rw [hdrop2, find_signature_eq_some_iff]
      constructor
      · rw [matchesAt]
        have hd : (payload ++ JPEG_END).drop payload.length = JPEG_END := List.drop_left _ _
        rw [hd]
        exact List.take_length _
      · intro j hj hc
        rw [matchesAt, List.drop_append_eq_append_drop] at hc
        have hj0 : j - payload.length = 0 := by omega
        rw [hj0, List.drop_zero] at hc
        by_cases hj2 : j + 2 ≤ payload.length
        · rw [List.take_append_eq_append_take] at hc
          have hlen2 : JPEG_END.length - (payload.drop j).length = 0 := by
            rw [List.length_drop]
            have h2 : JPEG_END.length = 2 := rfl
            omega
          rw [hlen2, List.take_zero, List.append_nil] at hc
          exact (find_signature_eq_none_iff payload JPEG_END).mp hpe j hc
        · have hlen1 : (payload.drop j).length = 1 := by
            rw [List.length_drop]
            omega
          obtain ⟨c, hc1⟩ := List.length_eq_one.mp hlen1
          rw [hc1] at hc
          simp [JPEG_END] at hc
    have hfa : ∃ rest, find_all_starts (JPEG_START ++ payload ++ JPEG_END) =
        (0, FileType.Jpeg) :: rest := by
      rcases hr : find_signature (JPEG_START ++ payload ++ JPEG_END) RW2_START with _ | b
      · exact ⟨[], find_all_starts_jpeg_only h0 hr⟩
      · refine ⟨[(b, FileType.Rw2)], ?_⟩
        rw [find_all_starts_both h0 hr, if_pos (Nat.zero_le b)]
    obtain ⟨rest, hfa⟩ := hfa
    have hscan := scan_jpeg_some hfa hend
    rw [hscan]
    have he : 0 + JPEG_START.length + payload.length + JPEG_END.length =
        (JPEG_START ++ payload ++ JPEG_END).length := by
      simp [JPEG_START, JPEG_END, List.length_append]
      omega
    rw [he, List.drop_length, scan_nil]
    rw [sliceOf, List.drop_zero, Nat.sub_zero, List.take_length]

/-- Witness for C1 on the one-payload-byte buffer `FF D8 00 FF D9`. -/
theorem C1_jpeg_extraction_witness :
    scan (JPEG_START ++ [0x00] ++ JPEG_END) =
      ([(JPEG_START ++ [0x00] ++ JPEG_END, FileType.Jpeg)], []) :=
  C1_jpeg_extraction.2 [0x00] (by decide) (by decide) (by decide)

/-- C2: when the earliest candidate is an Rw2 start at `s`, the engine
searches for the next start signature from `s + 4` on; if one is found at
relative offset `k` it emits `buffer[s .. s + 4 + k)` tagged Rw2 and
advances past it, continuing to scan; if none is found it emits the slice
from `s` to the current end of buffer tagged Rw2 and leaves the buffer
empty (returning to reading). -/
theorem C2_rw2_extraction :
    ∀ (buffer : List Nat) (s : Nat) (rest : List (Nat × FileType)),
      find_all_starts buffer = (s, FileType.Rw2) :: rest →
      ((∀ (k : Nat) (ft2 : FileType) (rest2 : List (Nat × FileType)),
          find_all_starts (buffer.drop (s + 4)) = (k, ft2) :: rest2 →
          scan buffer =
            ((sliceOf buffer s (s + 4 + k), FileType.Rw2) ::
               (scan (buffer.drop (s + 4 + k))).1,
             (scan (buffer.drop (s + 4 + k))).2)) ∧
       (find_all_starts (buffer.drop (s + 4)) = [] →
          scan buffer = ([(buffer.drop s, FileType.Rw2)], []))) := by
  intro buffer s rest h
  have hscan := scan_rw2 h
  constructor
  · intro k ft2 rest2 hnext
    have hre : rw2_end buffer s = s + 4 + k := by
      simp only [rw2_end, hnext, List.head?_cons]
    rw [hscan, hre]
  · intro hnone
    have hre : rw2_end buffer s = buffer.length := by
      simp only [rw2_end, hnone, List.head?_nil]
    rw [hscan, hre, List.drop_length, scan_nil]
    rw [sliceOf,
      show buffer.length - s = (buffer.drop s).length from (List.length_drop _ _).symm,
      List.take_length]

/-- Witness for C2 on an Rw2 start with no later signature: the whole
buffer is emitted and the working buffer is left empty. -/
theorem C2_rw2_extraction_witness :
    scan [0x49, 0x49, 0x2A, 0x00, 0xAA] =
      ([(([0x49, 0x49, 0x2A, 0x00, 0xAA] : List Nat).drop 0, FileType.Rw2)], []) :=
  (C2_rw2_extraction [0x49, 0x49, 0x2A, 0x00, 0xAA] 0 [] (by decide)).2 (by decide)

/-- C5: a buffer whose earliest candidate is a Jpeg start with no
subsequent end marker yields zero emissions from the scanning pass (the
bytes before the candidate are dropped, the candidate stays unresolved),
and at end of stream (no chunks left) the engine emits nothing more, so
the unresolved tail is discarded and no truncated Jpeg is ever written. -/
theorem C5_no_partial_jpeg_emitted :
    (∀ (buffer : List Nat) (s : Nat) (rest : List (Nat × FileType)),
        find_all_starts buffer = (s, FileType.Jpeg) :: rest →
        find_signature (buffer.drop (s + 2)) JPEG_END = none →
        scan buffer = ([], buffer.drop s)) ∧
    (∀ buffer : List Nat, run [] buffer = []) :=
  ⟨fun _ _ _ h hk => scan_jpeg_none h hk, fun _ => rfl⟩

/-- Witness for C5 on the open-Jpeg buffer `FF D8 AA`. -/
theorem C5_no_partial_jpeg_emitted_witness :
    scan [0xFF, 0xD8, 0xAA] = ([], ([0xFF, 0xD8, 0xAA] : List Nat).drop 0) :=
  C5_no_partial_jpeg_emitted.1 [0xFF, 0xD8, 0xAA] 0 [] (by decide) (by decide)

/-- C9: each emitting iteration of the inner loop removes an end index
that is at least `start + 4` and at most the buffer length, so the buffer
shrinks by at least 4 bytes; hence the loop terminates on every finite
buffer (the model `scan` is total by this very bound). -/
theorem C9_scan_step_shrinks :
    ∀ (buffer : List Nat) (s : Nat) (ft : FileType) (rest : List (Nat × FileType)),
      find_all_starts buffer = (s, ft) :: rest →
      ((ft = FileType.Jpeg → ∀ k,
          find_signature (buffer.drop (s + 2)) JPEG_END = some k →
          s + 4 ≤ s + 2 + k + 2 ∧ s + 2 + k + 2 ≤ buffer.length ∧
            (buffer.drop (s + 2 + k + 2)).length + 4 ≤ buffer.length) ∧
       (ft = FileType.Rw2 →
          s + 4 ≤ rw2_end buffer s ∧ rw2_end buffer s ≤ buffer.length ∧
            (buffer.drop (rw2_end buffer s)).length + 4 ≤ buffer.length)) := by
  intro buffer s ft rest h
  constructor
  · rintro rfl k hk
    have hs2 : s + 2 ≤ buffer.length := find_all_starts_head_le h
    have hkb : k + 2 ≤ (buffer.drop (s + 2)).length :=
      matchesAt_le (by simp [JPEG_END]) ((find_signature_eq_some_iff _ _ _).mp hk).1
    rw [List.length_drop] at hkb
    rw [List.length_drop]
    omega
  · rintro rfl
    have hge := rw2_end_ge h
    have hle := rw2_end_le h
    rw [List.length_drop]
    omega

/-- Witness for C9 on the minimal complete Jpeg `FF D8 FF D9`. -/
theorem C9_scan_step_shrinks_witness :
    0 + 4 ≤ 0 + 2 + 0 + 2 ∧
      0 + 2 + 0 + 2 ≤ ([0xFF, 0xD8, 0xFF, 0xD9] : List Nat).length ∧
      (([0xFF, 0xD8, 0xFF, 0xD9] : List Nat).drop (0 + 2 + 0 + 2)).length + 4 ≤
        ([0xFF, 0xD8, 0xFF, 0xD9] : List Nat).length :=
  (C9_scan_step_shrinks [0xFF, 0xD8, 0xFF, 0xD9] 0 FileType.Jpeg [] (by decide)).1 rfl 0
    (by decide)

/-- Counterexample to C4 as stated: on the all-zero 4-byte buffer the
boundary scan finds no candidate, yet the truncation retains all 4 bytes
— more than the claimed `Rw2 start length − 1 = 3`. -/
theorem C4_counterexample :
    find_all_starts [0, 0, 0, 0] = [] ∧ (scan [0, 0, 0, 0]).2 = [0, 0, 0, 0] ∧
      ¬ (scan [0, 0, 0, 0]).2.length ≤ 3 := by
  decide

/-- C4 (amended): whenever the boundary scan finds no candidate, the
buffer is truncated via `split_off(len.saturating_sub(RW2_START.len()))`
to retain at most the last `RW2_START.length = 4` bytes (not 3) before
returning to reading. -/
theorem C4_truncation_keeps_last_four :
    ∀ buffer : List Nat, find_all_starts buffer = [] →
      scan buffer = ([], buffer.drop (buffer.length - RW2_START.length)) ∧
        (scan buffer).2.length ≤ RW2_START.length := by
  intro buffer h
  have hs := scan_no_candidates h
  refine ⟨hs, ?_⟩
  rw [hs]
  show (buffer.drop (buffer.length - RW2_START.length)).length ≤ RW2_START.length
  rw [List.length_drop]
  have h4 : RW2_START.length = 4 := rfl
  omega

/-- Witness for C4 (amended) on a 5-byte signature-free buffer: the last
4 bytes are retained. -/
theorem C4_truncation_keeps_last_four_witness :
    scan [9, 8, 7, 6, 5] =
        ([], ([9, 8, 7, 6, 5] : List Nat).drop
          (([9, 8, 7, 6, 5] : List Nat).length - RW2_START.length)) ∧
      (scan [9, 8, 7, 6, 5]).2.length ≤ RW2_START.length :=
  C4_truncation_keeps_last_four [9, 8, 7, 6, 5] (by decide)

/-- C8: every slice emitted by the streaming engine begins with the start
signature of its tag; a Jpeg emission moreover ends with the Jpeg end
marker, and an Rw2 emission is at least 4 bytes long. -/
theorem C8_emission_invariant :
    ∀ (chunks : List (List Nat)) (f : List Nat) (t : FileType),
      (f, t) ∈ run chunks [] →
      (t = FileType.Jpeg → JPEG_START <+: f ∧ JPEG_END <:+ f) ∧
      (t = FileType.Rw2 → RW2_START <+: f ∧ 4 ≤ f.length) :=
  fun chunks f t h => run_emits chunks [] f t h

/-- Witness for C8 on the single emission of the stream `[[FF D8 FF D9]]`. -/
theorem C8_emission_invariant_witness :
    JPEG_START <+: [0xFF, 0xD8, 0xFF, 0xD9] ∧ JPEG_END <:+ [0xFF, 0xD8, 0xFF, 0xD9] :=
  (C8_emission_invariant [[0xFF, 0xD8, 0xFF, 0xD9]] [0xFF, 0xD8, 0xFF, 0xD9]
      FileType.Jpeg (by decide)).1 rfl

/-- Counterexample to C3 as stated: on the stream consisting of the single
chunk `FF D8 AA`, the chunked incremental engine of `main.rs` emits no
file (the Jpeg candidate has no end marker and is discarded at end of
stream), while the read-everything byte scan of `main2.rs` emits one
Jpeg-tagged slice `FF D8 AA`; the two strategies do not emit the same
sequence of files. -/
theorem C3_counterexample :
    run [[0xFF, 0xD8, 0xAA]] [] = [] ∧
      scan2 [0xFF, 0xD8, 0xAA] = [([0xFF, 0xD8, 0xAA], FileType.Jpeg)] ∧
      run [[0xFF, 0xD8, 0xAA]] [] ≠ scan2 [0xFF, 0xD8, 0xAA] := by
  decide

/-- C3 (amended): the two strategies are not two implementations of the
same emission contract — `main2.rs` delimits every file, Jpeg included, by
the next start signature (or end of data) and never consults the Jpeg end
marker, so the emitted sequences can differ.  What the two files do share
is the boundary-search primitive: for every buffer, `main2.rs`'s
`find_next_start` returns exactly the position of the earliest candidate
of `main.rs`'s `find_all_starts` (and `none` exactly when there is no
candidate). -/
theorem C3_shared_boundary_search (buffer : List Nat) :
    find_next_start buffer = ((find_all_starts buffer).head?).map Prod.fst := by
  rcases hf : find_next_start buffer with _ | i
  · have hall := (find_next_start_eq_none_iff buffer).mp hf
    have hj : find_signature buffer JPEG_START = none :=
      (find_signature_eq_none_iff _ _).mpr fun i hm => hall i (Or.inl hm)
    have hr : find_signature buffer RW2_START = none :=
      (find_signature_eq_none_iff _ _).mpr fun i hm => hall i (Or.inr hm)
    rw [find_all_starts_none hj hr]
    rfl
  · obtain ⟨hm, hmin⟩ := (find_next_start_eq_some_iff buffer i).mp hf
    rcases hm with hm | hm
    · have hj : find_signature buffer JPEG_START = some i :=
        (find_signature_eq_some_iff _ _ _).mpr ⟨hm, fun j hji hc => hmin j hji (Or.inl hc)⟩
      rcases hr : find_signature buffer RW2_START with _ | b
      · rw [find_all_starts_jpeg_only hj hr]
        rfl
      · have hmb := ((find_signature_eq_some_iff _ _ _).mp hr).1
        have hib : i ≤ b := by
          by_contra hlt
          exact hmin b (by omega) (Or.inr hmb)
        rw [find_all_starts_both hj hr, if_pos hib]
        rfl
    · have hr : find_signature buffer RW2_START = some i :=
        (find_signature_eq_some_iff _ _ _).mpr ⟨hm, fun j hji hc => hmin j hji (Or.inr hc)⟩
      rcases hj : find_signature buffer JPEG_START with _ | a
      · rw [find_all_starts_rw2_only hj hr]
        rfl
      · have hma := ((find_signature_eq_some_iff _ _ _).mp hj).1
        have hia : i ≤ a := by
          by_contra hlt
          exact hmin a (by omega) (Or.inl hma)
        have hne : a ≠ i := fun he => not_matchesAt_both (he ▸ hma) hm
        rw [find_all_starts_both hj hr, if_neg (by omega)]
        rfl

end SdRecover
